import Mathlib

/-!
Verification of the moshpit control-channel / datagram protocol engine.

Byte strings are modelled as `List Nat` (each element one octet).  The
definitions mirror the Rust sources of the repository: the bincode
`standard()` encoding used for frame payloads, the outer wire envelope
written by `ConnectionWriter::write_frame`, the decoder `Frame::parse`,
the buffered reader `ConnectionReader::read_frame`, the handshake
handlers of the relay runtime, and the datagram encoders/decoders.
-/

namespace Moshpit

/-- Big-endian byte encoding of `n` on `w` octets (Rust `to_be_bytes`). -/
def toBytesBE : Nat → Nat → List Nat
  | 0, _ => []
  | w + 1, n => toBytesBE w (n / 256) ++ [n % 256]

/-- Big-endian byte decoding (Rust `usize::from_be_bytes`). -/
def fromBytesBE (l : List Nat) : Nat :=
  l.foldl (fun a b => a * 256 + b) 0

/-- Little-endian byte encoding on `w` octets (bincode multi-byte varint bodies). -/
def toBytesLE : Nat → Nat → List Nat
  | 0, _ => []
  | w + 1, n => n % 256 :: toBytesLE w (n / 256)

/-- Little-endian byte decoding. -/
def fromBytesLE : List Nat → Nat
  | [] => 0
  | b :: rest => b + 256 * fromBytesLE rest

theorem toBytesBE_length (w n : Nat) : (toBytesBE w n).length = w := by
  induction w generalizing n with
  | zero => rfl
  | succ w ih => simp [toBytesBE, ih]

theorem toBytesLE_length (w n : Nat) : (toBytesLE w n).length = w := by
  induction w generalizing n with
  | zero => rfl
  | succ w ih => simp [toBytesLE, ih]

theorem fromBytesBE_aux (l : List Nat) (a : Nat) :
    l.foldl (fun a b => a * 256 + b) a = a * 256 ^ l.length + fromBytesBE l := by
  induction l generalizing a with
  | nil => simp [fromBytesBE]
  | cons b rest ih =>
      have hb : fromBytesBE (b :: rest) = rest.foldl (fun a b => a * 256 + b) b := by
        simp [fromBytesBE]
      rw [List.foldl_cons, ih (a * 256 + b), hb, ih b, List.length_cons]
      ring

theorem fromBytesBE_toBytesBE (w n : Nat) (h : n < 256 ^ w) :
    fromBytesBE (toBytesBE w n) = n := by
  induction w generalizing n with
  | zero =>
      simp [toBytesBE, fromBytesBE]
      omega
  | succ w ih =>
      have hdiv : n / 256 < 256 ^ w := by
        rw [Nat.div_lt_iff_lt_mul (by norm_num)]
        calc n < 256 ^ (w + 1) := h
        _ = 256 ^ w * 256 := by ring
      simp only [toBytesBE, fromBytesBE, List.foldl_append, List.foldl_cons,
        List.foldl_nil]
      have := fromBytesBE_aux (toBytesBE w (n / 256)) 0
      simp only [fromBytesBE] at this
      rw [show (toBytesBE w (n / 256)).foldl (fun a b => a * 256 + b) 0 =
        fromBytesBE (toBytesBE w (n / 256)) from rfl, ih _ hdiv]
      omega

theorem fromBytesLE_toBytesLE (w n : Nat) (h : n < 256 ^ w) :
    fromBytesLE (toBytesLE w n) = n := by
  induction w generalizing n with
  | zero =>
      simp [toBytesLE, fromBytesLE]
      omega
  | succ w ih =>
      have hdiv : n / 256 < 256 ^ w := by
        rw [Nat.div_lt_iff_lt_mul (by norm_num)]
        calc n < 256 ^ (w + 1) := h
        _ = 256 ^ w * 256 := by ring
      simp only [toBytesLE, fromBytesLE, ih _ hdiv]
      omega

/-- Take exactly `k` octets from the front, failing when fewer are available. -/
def takeExact (k : Nat) (l : List Nat) : Option (List Nat × List Nat) :=
  if k ≤ l.length then some (l.take k, l.drop k) else none

theorem takeExact_append (k : Nat) (l r : List Nat) (h : l.length = k) :
    takeExact k (l ++ r) = some (l, r) := by
  subst h
  simp [takeExact, List.take_left, List.drop_left]

/-- bincode `standard()` varint encoding of an unsigned integer. -/
def varintEncode (n : Nat) : List Nat :=
  if n < 251 then [n]
  else if n < 2 ^ 16 then 251 :: toBytesLE 2 n
  else if n < 2 ^ 32 then 252 :: toBytesLE 4 n
  else 253 :: toBytesLE 8 n

/-- bincode `standard()` varint decoding. -/
def varintDecode : List Nat → Option (Nat × List Nat)
  | [] => none
  | b :: rest =>
    if b < 251 then some (b, rest)
    else if b = 251 then
      (takeExact 2 rest).map fun p => (fromBytesLE p.1, p.2)
    else if b = 252 then
      (takeExact 4 rest).map fun p => (fromBytesLE p.1, p.2)
    else if b = 253 then
      (takeExact 8 rest).map fun p => (fromBytesLE p.1, p.2)
    else none

theorem varintDecode_varintEncode (n : Nat) (rest : List Nat) (h : n < 2 ^ 64) :
    varintDecode (varintEncode n ++ rest) = some (n, rest) := by
  unfold varintEncode
  by_cases h1 : n < 251
  · simp [varintDecode, h1]
  · by_cases h2 : n < 2 ^ 16
    · have hn : n < 256 ^ 2 := by norm_num at h2 ⊢; omega
      simp only [if_neg h1, if_pos h2, List.cons_append, varintDecode]
      norm_num
      rw [takeExact_append 2 _ rest (toBytesLE_length 2 n)]
      simp [fromBytesLE_toBytesLE 2 n hn]
    · by_cases h3 : n < 2 ^ 32
      · have hn : n < 256 ^ 4 := by norm_num at h3 ⊢; omega
        simp only [if_neg h1, if_neg h2, if_pos h3, List.cons_append, varintDecode]
        norm_num
        rw [takeExact_append 4 _ rest (toBytesLE_length 4 n)]
        simp [fromBytesLE_toBytesLE 4 n hn]
      · have hn : n < 256 ^ 8 := by norm_num at h ⊢; omega
        simp only [if_neg h1, if_neg h2, if_neg h3, List.cons_append, varintDecode]
        norm_num
        rw [takeExact_append 8 _ rest (toBytesLE_length 8 n)]
        simp [fromBytesLE_toBytesLE 8 n hn]

/-- ASCII code of the lowercase hex digit for `n < 16`. -/
def hexDigitChar (n : Nat) : Nat :=
  if n < 10 then 48 + n else 87 + n

/-- Two lowercase hex digits of one octet. -/
def byteToHex (b : Nat) : List Nat :=
  [hexDigitChar (b / 16), hexDigitChar (b % 16)]

/-- Hex rendering of a byte string. -/
def bytesToHex : List Nat → List Nat
  | [] => []
  | b :: rest => byteToHex b ++ bytesToHex rest

/-- Hyphenated lowercase display form of a 16-byte uuid, as ASCII codes.
Models the external `uuid` crate's `Display`, which the repository's
`UuidWrapper::encode` serializes as a bincode string. -/
def uuidDisplayBytes (u : List Nat) : List Nat :=
  bytesToHex (u.take 4) ++ ([45] ++ (bytesToHex ((u.drop 4).take 2) ++
    ([45] ++ (bytesToHex ((u.drop 6).take 2) ++ ([45] ++
    (bytesToHex ((u.drop 8).take 2) ++ ([45] ++ bytesToHex (u.drop 10))))))))

/-- Value of one ASCII hex digit, accepting both cases. -/
def hexVal (c : Nat) : Option Nat :=
  if 48 ≤ c ∧ c ≤ 57 then some (c - 48)
  else if 97 ≤ c ∧ c ≤ 102 then some (c - 87)
  else if 65 ≤ c ∧ c ≤ 70 then some (c - 55)
  else none

/-- Parse pairs of hex digits into octets. -/
def parseHexBytes : List Nat → Option (List Nat)
  | [] => some []
  | [_] => none
  | c1 :: c2 :: rest =>
    match hexVal c1, hexVal c2, parseHexBytes rest with
    | some hi, some lo, some bs => some ((16 * hi + lo) :: bs)
    | _, _, _ => none

/-- Expect an ASCII hyphen at the head. -/
def expectHyphen : List Nat → Option (List Nat)
  | c :: r => if c = 45 then some r else none
  | [] => none

theorem expectHyphen_cons (r : List Nat) : expectHyphen (45 :: r) = some r := by
  simp [expectHyphen]

/-- Models the external `uuid` crate's `Uuid::parse_str`, restricted to the
hyphenated format that `Display` produces (the only form the repository
feeds back into it). -/
def uuidParse (s : List Nat) : Option (List Nat) :=
  Option.bind (takeExact 8 s) fun q1 =>
  Option.bind (expectHyphen q1.2) fun r2 =>
  Option.bind (takeExact 4 r2) fun q2 =>
  Option.bind (expectHyphen q2.2) fun r4 =>
  Option.bind (takeExact 4 r4) fun q3 =>
  Option.bind (expectHyphen q3.2) fun r6 =>
  Option.bind (takeExact 4 r6) fun q4 =>
  Option.bind (expectHyphen q4.2) fun r8 =>
  Option.bind (takeExact 12 r8) fun q5 =>
  if q5.2 = [] then
    Option.bind (parseHexBytes q1.1) fun b1 =>
    Option.bind (parseHexBytes q2.1) fun b2 =>
    Option.bind (parseHexBytes q3.1) fun b3 =>
    Option.bind (parseHexBytes q4.1) fun b4 =>
    Option.bind (parseHexBytes q5.1) fun b5 =>
    some (b1 ++ (b2 ++ (b3 ++ (b4 ++ b5))))
  else none

theorem hexVal_hexDigitChar (n : Nat) (h : n < 16) :
    hexVal (hexDigitChar n) = some n := by
  interval_cases n <;> decide

theorem bytesToHex_length (l : List Nat) : (bytesToHex l).length = 2 * l.length := by
  induction l with
  | nil => rfl
  | cons b rest ih => simp [bytesToHex, byteToHex, ih]; ring

theorem parseHexBytes_bytesToHex (l : List Nat) (h : ∀ b ∈ l, b < 256) :
    parseHexBytes (bytesToHex l) = some l := by
  induction l with
  | nil => rfl
  | cons b rest ih =>
      have hb : b < 256 := h b (by simp)
      have hhi : b / 16 < 16 := by omega
      have hlo : b % 16 < 16 := by omega
      have hshape : bytesToHex (b :: rest) =
          hexDigitChar (b / 16) :: hexDigitChar (b % 16) :: bytesToHex rest := by
        simp [bytesToHex, byteToHex]
      rw [hshape]
      simp only [parseHexBytes, hexVal_hexDigitChar _ hhi, hexVal_hexDigitChar _ hlo,
        ih (fun x hx => h x (by simp [hx]))]
      have hbv : 16 * (b / 16) + b % 16 = b := by omega
      rw [hbv]

theorem takeExact_self (k : Nat) (l : List Nat) (h : l.length = k) :
    takeExact k l = some (l, []) := by
  subst h
  simp [takeExact]

set_option maxHeartbeats 1600000 in
theorem uuidParse_groups (a1 a2 a3 a4 a5 b1 b2 b3 b4 b5 : List Nat)
    (h1 : a1.length = 8) (h2 : a2.length = 4) (h3 : a3.length = 4)
    (h4 : a4.length = 4) (h5 : a5.length = 12)
    (p1 : parseHexBytes a1 = some b1) (p2 : parseHexBytes a2 = some b2)
    (p3 : parseHexBytes a3 = some b3) (p4 : parseHexBytes a4 = some b4)
    (p5 : parseHexBytes a5 = some b5) :
    uuidParse (a1 ++ ([45] ++ (a2 ++ ([45] ++ (a3 ++ ([45] ++
      (a4 ++ ([45] ++ a5)))))))) = some (b1 ++ (b2 ++ (b3 ++ (b4 ++ b5)))) := by
  unfold uuidParse
  rw [takeExact_append 8 _ _ h1]
  simp only [Option.some_bind', List.singleton_append, expectHyphen_cons]
  rw [takeExact_append 4 _ _ h2]
  simp only [Option.some_bind', List.singleton_append, expectHyphen_cons]
  rw [takeExact_append 4 _ _ h3]
  simp only [Option.some_bind', List.singleton_append, expectHyphen_cons]
  rw [takeExact_append 4 _ _ h4]
  simp only [Option.some_bind', List.singleton_append, expectHyphen_cons]
  rw [takeExact_self 12 _ h5]
  simp only [Option.some_bind']
  simp only [if_true]
  simp only [p1, p2, p3, p4, p5, Option.some_bind']

theorem uuidParse_uuidDisplayBytes (u : List Nat) (hlen : u.length = 16)
    (hbytes : ∀ b ∈ u, b < 256) :
    uuidParse (uuidDisplayBytes u) = some u := by
  have hsub : ∀ k j : Nat, ∀ b ∈ (u.drop k).take j, b < 256 := fun k j b hb =>
    hbytes b (List.mem_of_mem_drop (List.mem_of_mem_take hb))
  have htk : ∀ b ∈ u.take 4, b < 256 := fun b hb => hbytes b (List.mem_of_mem_take hb)
  have hdr : ∀ b ∈ u.drop 10, b < 256 := fun b hb => hbytes b (List.mem_of_mem_drop hb)
  have hjoin : u.take 4 ++ ((u.drop 4).take 2 ++ ((u.drop 6).take 2 ++
      ((u.drop 8).take 2 ++ u.drop 10))) = u := by
    have s8 : (u.drop 8).take 2 ++ u.drop 10 = u.drop 8 := by
      have := List.take_append_drop 2 (u.drop 8)
      rwa [List.drop_drop, show (2 + 8 : Nat) = 10 from rfl] at this
    have s6 : (u.drop 6).take 2 ++ u.drop 8 = u.drop 6 := by
      have := List.take_append_drop 2 (u.drop 6)
      rwa [List.drop_drop, show (2 + 6 : Nat) = 8 from rfl] at this
    have s4 : (u.drop 4).take 2 ++ u.drop 6 = u.drop 4 := by
      have := List.take_append_drop 2 (u.drop 4)
      rwa [List.drop_drop, show (2 + 4 : Nat) = 6 from rfl] at this
    rw [s8, s6, s4, List.take_append_drop]
  unfold uuidDisplayBytes
  rw [uuidParse_groups _ _ _ _ _ (u.take 4) ((u.drop 4).take 2)
      ((u.drop 6).take 2) ((u.drop 8).take 2) (u.drop 10)
      (by rw [bytesToHex_length]; simp [hlen])
      (by rw [bytesToHex_length]; simp [hlen])
      (by rw [bytesToHex_length]; simp [hlen])
      (by rw [bytesToHex_length]; simp [hlen])
      (by rw [bytesToHex_length]; simp [hlen])
      (parseHexBytes_bytesToHex _ htk)
      (parseHexBytes_bytesToHex _ (hsub 4 2))
      (parseHexBytes_bytesToHex _ (hsub 6 2))
      (parseHexBytes_bytesToHex _ (hsub 8 2))
      (parseHexBytes_bytesToHex _ hdr), hjoin]

/-- The moshpit control frame (`libmoshpit/src/frames/frame.rs`).  The
`keyAgreement` payload is the 16 octets of the wrapped uuid. -/
inductive Frame where
  | init (data : List Nat)
  | peerInit (pk salt : List Nat)
  | check (nonce data : List Nat)
  | keyAgreement (uuid : List Nat)
deriving DecidableEq

/-- `Frame::id`: the frame identifier of each variant. -/
def Frame.id : Frame → Nat
  | .init _ => 0
  | .peerInit _ _ => 1
  | .check _ _ => 2
  | .keyAgreement _ => 3

/-- bincode `standard()` encoding of a `Frame` (what `encode_to_vec`
produces): a varint variant index, then the fields — `Vec<u8>` as varint
length plus raw octets, `[u8; 12]` as 12 raw octets, `UuidWrapper` as a
bincode string of its hyphenated display form. -/
def bincodeEncode : Frame → List Nat
  | .init d => varintEncode 0 ++ (varintEncode d.length ++ d)
  | .peerInit pk salt =>
      varintEncode 1 ++ (varintEncode pk.length ++ (pk ++
        (varintEncode salt.length ++ salt)))
  | .check nonce d => varintEncode 2 ++ (nonce ++ (varintEncode d.length ++ d))
  | .keyAgreement u =>
      varintEncode 3 ++ (varintEncode (uuidDisplayBytes u).length ++
        uuidDisplayBytes u)

/-- bincode `standard()` decoding of a `Frame` (what `decode_from_slice`
does), returning the decoded frame and the unread remainder. -/
def bincodeDecode (l : List Nat) : Option (Frame × List Nat) :=
  Option.bind (varintDecode l) fun tr =>
  if tr.1 = 0 then
    Option.bind (varintDecode tr.2) fun nr =>
    Option.bind (takeExact nr.1 nr.2) fun dr =>
    some (Frame.init dr.1, dr.2)
  else if tr.1 = 1 then
    Option.bind (varintDecode tr.2) fun n1 =>
    Option.bind (takeExact n1.1 n1.2) fun d1 =>
    Option.bind (varintDecode d1.2) fun n2 =>
    Option.bind (takeExact n2.1 n2.2) fun d2 =>
    some (Frame.peerInit d1.1 d2.1, d2.2)
  else if tr.1 = 2 then
    Option.bind (takeExact 12 tr.2) fun nonce =>
    Option.bind (varintDecode nonce.2) fun n =>
    Option.bind (takeExact n.1 n.2) fun d =>
    some (Frame.check nonce.1 d.1, d.2)
  else if tr.1 = 3 then
    Option.bind (varintDecode tr.2) fun n =>
    Option.bind (takeExact n.1 n.2) fun sr =>
    Option.bind (uuidParse sr.1) fun u =>
    some (Frame.keyAgreement u, sr.2)
  else none

/-- Validity of a frame: its byte vectors fit a usize-length encoding, a
check nonce is 12 octets (`[u8; 12]`), and a key-agreement uuid is 16
genuine octets. -/
def Frame.wf : Frame → Prop
  | .init d => d.length + 64 < 2 ^ 64
  | .peerInit pk salt => pk.length + salt.length + 64 < 2 ^ 64
  | .check nonce d => nonce.length = 12 ∧ d.length + 64 < 2 ^ 64
  | .keyAgreement u => u.length = 16 ∧ ∀ b ∈ u, b < 256

instance : DecidablePred Frame.wf := by
  intro f
  cases f <;> simp only [Frame.wf] <;> infer_instance

theorem varintEncode_length_le (n : Nat) : (varintEncode n).length ≤ 9 := by
  unfold varintEncode
  split
  · simp
  · split
    · simp [toBytesLE_length]
    · split <;> simp [toBytesLE_length]

theorem bincodeEncode_length_lt (f : Frame) (h : f.wf) :
    (bincodeEncode f).length < 2 ^ 64 := by
  cases f with
  | init d =>
      simp only [Frame.wf] at h
      have := varintEncode_length_le 0
      have := varintEncode_length_le d.length
      simp only [bincodeEncode, List.length_append]
      omega
  | peerInit pk salt =>
      simp only [Frame.wf] at h
      have := varintEncode_length_le 1
      have := varintEncode_length_le pk.length
      have := varintEncode_length_le salt.length
      simp only [bincodeEncode, List.length_append]
      omega
  | check nonce d =>
      obtain ⟨hn, hd⟩ := h
      have := varintEncode_length_le 2
      have := varintEncode_length_le d.length
      simp only [bincodeEncode, List.length_append]
      omega
  | keyAgreement u =>
      obtain ⟨hu, _⟩ := h
      have h36 : (uuidDisplayBytes u).length = 36 := by
        simp [uuidDisplayBytes, List.length_append, bytesToHex_length, hu]
      have := varintEncode_length_le 3
      have := varintEncode_length_le (uuidDisplayBytes u).length
      simp only [bincodeEncode, List.length_append]
      omega

theorem bincodeDecode_bincodeEncode (f : Frame) (rest : List Nat) (h : f.wf) :
    bincodeDecode (bincodeEncode f ++ rest) = some (f, rest) := by
  cases f with
  | init d =>
      simp only [Frame.wf] at h
      simp only [bincodeEncode, bincodeDecode, List.append_assoc]
      rw [varintDecode_varintEncode 0 _ (by norm_num)]
      simp only [Option.some_bind']
      simp only [if_true]
      rw [varintDecode_varintEncode d.length _ (by omega)]
      simp only [Option.some_bind']
      rw [takeExact_append d.length d rest rfl]
      simp only [Option.some_bind']
  | peerInit pk salt =>
      simp only [Frame.wf] at h
      simp only [bincodeEncode, bincodeDecode, List.append_assoc]
      rw [varintDecode_varintEncode 1 _ (by norm_num)]
      simp only [Option.some_bind']
      rw [if_neg (by norm_num)]
      simp only [if_true]
      rw [varintDecode_varintEncode pk.length _ (by omega)]
      simp only [Option.some_bind']
      rw [takeExact_append pk.length pk _ rfl]
      simp only [Option.some_bind']
      rw [varintDecode_varintEncode salt.length _ (by omega)]
      simp only [Option.some_bind']
      rw [takeExact_append salt.length salt rest rfl]
      simp only [Option.some_bind']
  | check nonce d =>
      obtain ⟨hn, hd⟩ := h
      simp only [bincodeEncode, bincodeDecode, List.append_assoc]
      rw [varintDecode_varintEncode 2 _ (by norm_num)]
      simp only [Option.some_bind']
      rw [if_neg (by norm_num), if_neg (by norm_num)]
      simp only [if_true]
      rw [takeExact_append 12 nonce _ hn]
      simp only [Option.some_bind']
      rw [varintDecode_varintEncode d.length _ (by omega)]
      simp only [Option.some_bind']
      rw [takeExact_append d.length d rest rfl]
      simp only [Option.some_bind']
  | keyAgreement u =>
      obtain ⟨hu, hb⟩ := h
      simp only [bincodeEncode, bincodeDecode, List.append_assoc]
      rw [varintDecode_varintEncode 3 _ (by norm_num)]
      simp only [Option.some_bind']
      rw [if_neg (by norm_num), if_neg (by norm_num), if_neg (by norm_num)]
      simp only [if_true]
      rw [varintDecode_varintEncode (uuidDisplayBytes u).length _ (by
        have : (uuidDisplayBytes u).length = 36 := by
          simp [uuidDisplayBytes, List.length_append, bytesToHex_length, hu]
        omega)]
      simp only [Option.some_bind']
      rw [takeExact_append (uuidDisplayBytes u).length (uuidDisplayBytes u) rest rfl]
      simp only [Option.some_bind']
      rw [uuidParse_uuidDisplayBytes u hu hb]
      simp only [Option.some_bind']

/-- Byte sequence emitted by `ConnectionWriter::write_frame`: a literal `0`
tag octet (the computed `frame.id()` is only logged, not written), the
8-byte big-endian bincode payload length, then the bincode payload. -/
def writeFrameBytes (f : Frame) : List Nat :=
  0 :: (toBytesBE 8 (bincodeEncode f).length ++ bincodeEncode f)

theorem writeFrameBytes_length (f : Frame) :
    (writeFrameBytes f).length = 9 + (bincodeEncode f).length := by
  simp [writeFrameBytes, toBytesBE_length]
  omega

/-- `Frame::parse`: returns `.ok none` when the buffer cannot yet hold a
frame (incomplete data or an unknown tag), `.ok (some (f, n))` with the
consumed octet count on success, and `.error` when the bincode payload is
malformed. -/
def parseFrame (l : List Nat) : Except Unit (Option (Frame × Nat)) :=
  match l with
  | [] => .ok none
  | t :: rest =>
    if t ≤ 3 then
      if rest.length < 8 then .ok none
      else
        let len := fromBytesBE (rest.take 8)
        if (rest.drop 8).length < len then .ok none
        else
          match bincodeDecode ((rest.drop 8).take len) with
          | some (f, _) => .ok (some (f, 9 + len))
          | none => .error ()
    else .ok none

theorem parseFrame_complete (f : Frame) (rest : List Nat) (h : f.wf) :
    parseFrame (writeFrameBytes f ++ rest) =
      .ok (some (f, (writeFrameBytes f).length)) := by
  have hL : (bincodeEncode f).length < 2 ^ 64 := bincodeEncode_length_lt f h
  have hshape : writeFrameBytes f ++ rest =
      0 :: (toBytesBE 8 (bincodeEncode f).length ++ (bincodeEncode f ++ rest)) := by
    simp [writeFrameBytes, List.append_assoc]
  rw [hshape]
  have hlen8 : (toBytesBE 8 (bincodeEncode f).length).length = 8 :=
    toBytesBE_length 8 _
  have htail : (toBytesBE 8 (bincodeEncode f).length ++
      (bincodeEncode f ++ rest)).length = 8 + ((bincodeEncode f).length + rest.length) := by
    simp [hlen8]
  simp only [parseFrame]
  rw [if_pos (by norm_num)]
  rw [if_neg (by omega)]
  rw [List.take_append_of_le_length (by omega),
    show (toBytesBE 8 (bincodeEncode f).length).take 8 =
      toBytesBE 8 (bincodeEncode f).length from by simp [hlen8],
    fromBytesBE_toBytesBE 8 _ (by norm_num at hL ⊢; omega),
    List.drop_left' hlen8]
  rw [if_neg (by simp)]
  rw [List.take_append_of_le_length (by simp),
    show (bincodeEncode f).take (bincodeEncode f).length = bincodeEncode f from by simp]
  have hdec : bincodeDecode (bincodeEncode f) = some (f, []) := by
    have := bincodeDecode_bincodeEncode f [] h
    simpa using this
  rw [hdec, writeFrameBytes_length]

theorem parseFrame_incomplete (l : List Nat)
    (h : l.length < 9 ∨ l.length - 9 < fromBytesBE ((l.drop 1).take 8)) :
    parseFrame l = .ok none := by
  match l with
  | [] => rfl
  | t :: rest =>
    simp only [parseFrame]
    by_cases ht : t ≤ 3
    · rw [if_pos ht]
      by_cases hlen : rest.length < 8
      · rw [if_pos hlen]
      · rw [if_neg hlen]
        have hr : (rest.drop 8).length < fromBytesBE (rest.take 8) := by
          simp only [List.length_cons, List.drop_succ_cons, List.length_drop] at h ⊢
          rcases h with h | h
          · omega
          · simpa using h
        rw [if_pos hr]
    · rw [if_neg ht]

theorem parseFrame_wire_take (f : Frame) (h : f.wf) (n : Nat)
    (hn : n < (writeFrameBytes f).length) :
    parseFrame ((writeFrameBytes f).take n) = .ok none := by
  have hL : (bincodeEncode f).length < 2 ^ 64 := bincodeEncode_length_lt f h
  have hwlen := writeFrameBytes_length f
  by_cases h9 : n < 9
  · exact parseFrame_incomplete _ (Or.inl (by simp; omega))
  · apply parseFrame_incomplete
    right
    have hlen8 : (toBytesBE 8 (bincodeEncode f).length).length = 8 :=
      toBytesBE_length 8 _
    have hdr : (((writeFrameBytes f).take n).drop 1).take 8 =
        toBytesBE 8 (bincodeEncode f).length := by
      match hn' : n, h9 with
      | m + 1, _ =>
        rw [show writeFrameBytes f =
          0 :: (toBytesBE 8 (bincodeEncode f).length ++ bincodeEncode f) from rfl,
          List.take_succ_cons, List.drop_one, List.tail_cons, List.take_take,
          show min 8 m = 8 from by omega,
          List.take_append_of_le_length (by omega)]
        simp [hlen8]
    rw [hdr, fromBytesBE_toBytesBE 8 _ (by norm_num at hL ⊢; omega)]
    have : ((writeFrameBytes f).take n).length = n := by
      simp; omega
    omega

/-- Outcome of one `ConnectionReader::read_frame` call. -/
inductive ReadOutcome where
  | frame (f : Frame) (buf : List Nat) (chunks : List (List Nat))
  | eofClean
  | eofReset
  | parseFailed
  | starved
deriving DecidableEq

/-- `ConnectionReader::read_frame` over a deterministic byte source: the
buffer is parsed; on success the consumed bytes are discarded and the rest
kept for the next call; on incompleteness one more socket read is taken
from `chunks` (an empty read means the peer closed the stream).  `starved`
marks the state in which the real code would suspend awaiting more data. -/
def readFrame : List Nat → List (List Nat) → ReadOutcome
  | buf, [] =>
    match parseFrame buf with
    | .error _ => .parseFailed
    | .ok (some (f, n)) => .frame f (buf.drop n) []
    | .ok none => .starved
  | buf, c :: cs =>
    match parseFrame buf with
    | .error _ => .parseFailed
    | .ok (some (f, n)) => .frame f (buf.drop n) (c :: cs)
    | .ok none =>
      if c = [] then (if buf = [] then .eofClean else .eofReset)
      else readFrame (buf ++ c) cs

theorem readFrame_step (buf c : List Nat) (cs : List (List Nat))
    (hparse : parseFrame buf = .ok none) (hc : c ≠ []) :
    readFrame buf (c :: cs) = readFrame (buf ++ c) cs := by
  rw [readFrame, hparse]
  simp [hc]

theorem readFrame_done (f : Frame) (h : f.wf) (e : List Nat)
    (chunks : List (List Nat)) :
    readFrame (writeFrameBytes f ++ e) chunks = .frame f e chunks := by
  cases chunks <;> rw [readFrame, parseFrame_complete f e h] <;>
    simp [List.drop_left]

theorem readFrame_delivers (f : Frame) (h : f.wf) :
    ∀ (chunks : List (List Nat)) (buf extra : List Nat),
      (∀ c ∈ chunks, c ≠ []) →
      buf ++ chunks.flatten = writeFrameBytes f ++ extra →
      ∃ rest cs, readFrame buf chunks = .frame f rest cs ∧
        rest ++ cs.flatten = extra := by
  intro chunks
  induction chunks with
  | nil =>
      intro buf extra _ heq
      simp only [List.flatten_nil, List.append_nil] at heq
      subst heq
      exact ⟨extra, [], readFrame_done f h extra [], by simp⟩
  | cons c cs ih =>
      intro buf extra hne heq
      by_cases hge : (writeFrameBytes f).length ≤ buf.length
      · have ht : buf.take (writeFrameBytes f).length = writeFrameBytes f := by
          have h1 : (buf ++ (c :: cs).flatten).take (writeFrameBytes f).length =
              buf.take (writeFrameBytes f).length :=
            List.take_append_of_le_length hge
          rw [heq, List.take_left] at h1
          exact h1.symm
        have hbuf : buf = writeFrameBytes f ++ buf.drop (writeFrameBytes f).length := by
          conv_lhs => rw [← List.take_append_drop (writeFrameBytes f).length buf]
          rw [ht]
        have hdrop : buf.drop (writeFrameBytes f).length ++ (c :: cs).flatten =
            extra := by
          have h2 := congrArg (List.drop (writeFrameBytes f).length) heq
          rw [List.drop_append_of_le_length hge, List.drop_left] at h2
          exact h2
        refine ⟨buf.drop (writeFrameBytes f).length, c :: cs, ?_, hdrop⟩
        conv_lhs => rw [hbuf]
        exact readFrame_done f h _ _
      · push_neg at hge
        have hbuf : buf = (writeFrameBytes f).take buf.length := by
          have h1 : (buf ++ (c :: cs).flatten).take buf.length = buf := by
            rw [List.take_append_of_le_length (le_refl _)]
            simp
          rw [heq, List.take_append_of_le_length (by omega)] at h1
          exact h1.symm
        have hparse : parseFrame buf = .ok none := by
          conv_lhs => rw [hbuf]
          exact parseFrame_wire_take f h buf.length hge
        have hcne : c ≠ [] := hne c (by simp)
        rw [readFrame_step buf c cs hparse hcne]
        refine ih (buf ++ c) extra (fun x hx => hne x (by simp [hx])) ?_
        rw [List.append_assoc]
        rw [show c ++ cs.flatten = (c :: cs).flatten from by simp]
        exact heq

/-- Abstract interface to the aws-lc-rs primitives the repository calls
(X25519 agreement, HKDF extract/expand, AES-256-GCM-SIV with a randomized
nonce, HMAC-SHA512).  The `Prop` fields are the library's documented
contracts: `seal_in_place_append_tag` returns a 12-octet nonce and appends
a 16-octet tag, `open_in_place` succeeds only when the input carries a
valid tag (hence is at least 16 octets longer than the plaintext it
returns), opening a sealed message with the same key and nonce recovers
the plaintext, and HMAC-SHA512 tags are 64 octets. -/
structure Crypto where
  computePublic : List Nat → List Nat
  agree : List Nat → List Nat → List Nat
  extract : List Nat → List Nat → List Nat
  expand : List Nat → List Nat → Nat → List Nat
  sealTag : List Nat → List Nat → List Nat × List Nat
  aeadOpen : List Nat → List Nat → List Nat → Option (List Nat)
  mac : List Nat → List Nat → List Nat
  seal_nonce_len : ∀ k p, (sealTag k p).1.length = 12
  seal_ct_len : ∀ k p, (sealTag k p).2.length = p.length + 16
  mac_len : ∀ k d, (mac k d).length = 64
  open_len : ∀ k n ct p, aeadOpen k n ct = some p → p.length + 16 = ct.length
  open_seal : ∀ k p, aeadOpen k (sealTag k p).1 (sealTag k p).2 = some p

/-- ASCII octets of the HKDF info string picked for the AEAD key. -/
def aeadInfo : List Nat := [97, 101, 97, 100, 32, 107, 101, 121]

/-- ASCII octets of the HKDF info string picked for the HMAC key. -/
def hmacInfo : List Nat := [104, 109, 97, 99, 32, 107, 101, 121]

/-- ASCII octets of the known liveness marker encrypted in a Check frame. -/
def yodaBytes : List Nat := [89, 111, 100, 97]

/-- `UdpState` messages sent over the per-connection state channel. -/
inductive UdpStateM where
  | key (k : List Nat)
  | hmacKey (k : List Nat)
  | uuid (u : List Nat)
deriving DecidableEq

def UdpStateM.isHmac : UdpStateM → Bool
  | .hmacKey _ => true
  | _ => false

/-- What the relay's `Handler::handle_initialize` produces: the
PeerInitialize frame written back, the `UdpState` messages sent on the
state channel, and the AEAD key retained as `self.rnk`. -/
structure RelayInitResult where
  sentFrame : Frame
  sentStates : List UdpStateM
  rnkKey : List Nat
deriving DecidableEq

/-- Relay `Handler::handle_initialize` (moshpits/src/runtime.rs): agree on
the client public key, extract with the fresh salt, expand one 32-octet
AEAD key under the `aead key` info string, send it as `UdpState::Key`, and
reply with PeerInitialize carrying the own public key and the salt.  No
MAC key is derived on this side. -/
def relayHandleInit (c : Crypto) (pk priv salt : List Nat) : RelayInitResult where
  sentFrame := Frame.peerInit (c.computePublic priv) salt
  sentStates := [UdpStateM.key (c.expand (c.extract salt (c.agree priv pk)) aeadInfo 32)]
  rnkKey := c.expand (c.extract salt (c.agree priv pk)) aeadInfo 32

/-- What the client's PeerInitialize handler produces. -/
structure ClientInitResult where
  sentFrames : List Frame
  sentStates : List UdpStateM
  aeadKey : List Nat
  macKey : List Nat
deriving DecidableEq

/-- Client `FrameReader::handle_connection`, PeerInitialize branch
(moshpit/src/tcp/reader.rs): agree on the relay public key, extract with
the received salt, expand a 32-octet AEAD key under `aead key` and a
64-octet HMAC key under `hmac key`, send both as `UdpState` messages, and
send a Check frame sealing the known marker under the AEAD key. -/
def clientHandlePeerInit (c : Crypto) (epk pk saltBytes : List Nat) : ClientInitResult where
  sentFrames :=
    [Frame.check (c.sealTag (c.expand (c.extract saltBytes (c.agree epk pk)) aeadInfo 32) yodaBytes).1
      (c.sealTag (c.expand (c.extract saltBytes (c.agree epk pk)) aeadInfo 32) yodaBytes).2]
  sentStates :=
    [UdpStateM.key (c.expand (c.extract saltBytes (c.agree epk pk)) aeadInfo 32),
     UdpStateM.hmacKey (c.expand (c.extract saltBytes (c.agree epk pk)) hmacInfo 64)]
  aeadKey := c.expand (c.extract saltBytes (c.agree epk pk)) aeadInfo 32
  macKey := c.expand (c.extract saltBytes (c.agree epk pk)) hmacInfo 64

/-- The typed handshake errors of `MoshpitError` used by the relay. -/
inductive MoshpitErr where
  | invalidFrame
  | keyNotEstablished
  | decryptionFailed
deriving DecidableEq

/-- What a successful `Handler::handle_check` produces. -/
structure CheckResult where
  sentFrames : List Frame
  sentStates : List UdpStateM
deriving DecidableEq

/-- Relay `Handler::handle_check` (moshpits/src/runtime.rs): fails with
`KeyNotEstablished` when no key was derived yet; decrypts the check bytes
with the retained AEAD key, mapping failure to `DecryptionFailed`; on a
plaintext equal to the marker, generates the session uuid (`freshUuid`
stands for the `Uuid::new_v4()` draw), sends it as `UdpState::Uuid` and
writes the KeyAgreement frame; any other plaintext is `DecryptionFailed`. -/
def handleCheck (c : Crypto) (rnk : Option (List Nat))
    (nonceBytes checkBytes freshUuid : List Nat) : Except MoshpitErr CheckResult :=
  match rnk with
  | none => .error .keyNotEstablished
  | some key =>
    match c.aeadOpen key nonceBytes checkBytes with
    | none => .error .decryptionFailed
    | some plain =>
      if plain = yodaBytes then
        .ok ⟨[Frame.keyAgreement freshUuid], [UdpStateM.uuid freshUuid]⟩
      else .error .decryptionFailed

/-- Outcome of the relay's `Handler::handle_connection`. -/
inductive ConnOutcome where
  | promoted (key uuid : List Nat) (written : List Frame)
  | failed (e : MoshpitErr) (written : List Frame)
  | blocked (written : List Frame)
deriving DecidableEq

/-- The drain loop closing `Handler::handle_connection`: starting from a
zeroed key, fold the state-channel messages, remembering the last Key and
breaking on the first Uuid.  An exhausted queue means the `recv().await`
would suspend forever (the sender half is still alive in that scope),
modelled as `none`; the source matches only the Key and Uuid variants, and
its own handlers never send HmacKey, so that message is skipped here for
totality. -/
def drainUdpState : List Nat → List UdpStateM → Option (List Nat × List Nat)
  | _, [] => none
  | _, UdpStateM.key k :: rest => drainUdpState k rest
  | kb, UdpStateM.hmacKey _ :: rest => drainUdpState kb rest
  | kb, UdpStateM.uuid u :: _ => some (kb, u)

/-- Second half of `Handler::handle_connection`: handle the second frame
read (which must be Check), then drain the state channel for the key and
session uuid. -/
def relayStep2 (c : Crypto) (rnk : Option (List Nat)) (queue : List UdpStateM)
    (written : List Frame) (freshUuid : List Nat) (read2 : Option Frame) : ConnOutcome :=
  match read2 with
  | some (Frame.check nonceB ct) =>
    match handleCheck c rnk nonceB ct freshUuid with
    | .error e => ConnOutcome.failed e written
    | .ok res =>
      match drainUdpState (List.replicate 32 0) (queue ++ res.sentStates) with
      | some (kb, uu) => ConnOutcome.promoted kb uu (written ++ res.sentFrames)
      | none => ConnOutcome.blocked (written ++ res.sentFrames)
  | some _ => ConnOutcome.failed MoshpitErr.invalidFrame written
  | none =>
    match drainUdpState (List.replicate 32 0) queue with
    | some (kb, uu) => ConnOutcome.promoted kb uu written
    | none => ConnOutcome.blocked written

/-- Relay `Handler::handle_connection` (moshpits/src/runtime.rs) over the
two frames its reads return (`none` models `read_frame` returning
`Ok(None)` on a closed stream): the first frame must be Initialize, the
second must be Check, and the returned pair is what the drain loop
delivers for binding the UDP tasks. -/
def relayHandleConnection (c : Crypto) (priv salt freshUuid : List Nat)
    (read1 read2 : Option Frame) : ConnOutcome :=
  match read1 with
  | some (Frame.init pk) =>
    relayStep2 c (some (relayHandleInit c pk priv salt).rnkKey)
      (relayHandleInit c pk priv salt).sentStates
      [(relayHandleInit c pk priv salt).sentFrame] freshUuid read2
  | some _ => ConnOutcome.failed MoshpitErr.invalidFrame []
  | none => relayStep2 c none [] [] freshUuid read2

/-- Plaintext assembled by the client's `UdpSender::encrypt` before
sealing: the 16 session-id octets followed directly by the payload (there
is no inner length field). -/
def senderPlaintext (id payload : List Nat) : List Nat := id ++ payload

/-- The inner plaintext layout the specification prescribes for the
authenticated datagram form.  Modelled from the spec for refinement
comparison only: `[16-byte session id][8-byte big-endian length][payload]`. -/
def specAuthPlaintext (id payload : List Nat) : List Nat :=
  id ++ (toBytesBE 8 payload.length ++ payload)

/-- Client `UdpSender::encrypt` (moshpit/src/udp/sender.rs): seal the id
plus payload under the AEAD key, MAC the resulting ciphertext with the
HMAC key, and emit nonce, tag, 8-byte big-endian ciphertext length, and
ciphertext. -/
def udpSenderEncrypt (c : Crypto) (hmacKey rnkKey id payload : List Nat) : List Nat :=
  (c.sealTag rnkKey (senderPlaintext id payload)).1 ++
    (c.mac hmacKey (c.sealTag rnkKey (senderPlaintext id payload)).2 ++
      (toBytesBE 8 (c.sealTag rnkKey (senderPlaintext id payload)).2.length ++
        (c.sealTag rnkKey (senderPlaintext id payload)).2))

/-- Outcome of `EncryptedFrame::parse`. -/
inductive EncParseOutcome where
  | okNone
  | okSome (uuid payload : List Nat)
  | err
  | crash
deriving DecidableEq

/-- `EncryptedFrame::parse` (libmoshpit/src/frames/encframe.rs): read the
12-octet nonce, the 64-octet tag, the 8-octet big-endian length and that
many ciphertext octets, returning `okNone` when any of them is short;
verify the HMAC over the ciphertext, returning `err` on mismatch; only
then decrypt, `err` on failure; on success split the decrypted in-place
buffer (whose 16 octets past the plaintext are left unspecified by the
library; modelled as the untouched tail of the ciphertext) at the 16-octet
session id.  `crash` marks an out-of-bounds `split_at`, shown unreachable. -/
def encData (src : List Nat) : List Nat :=
  (((src.drop 12).drop 64).drop 8).take (fromBytesBE (((src.drop 12).drop 64).take 8))

def encFrameParse (c : Crypto) (hmacKey rnkKey src : List Nat) : EncParseOutcome :=
  if src.length < 12 then EncParseOutcome.okNone
  else
    if (src.drop 12).length < 64 then EncParseOutcome.okNone
    else
      if ((src.drop 12).drop 64).length < 8 then EncParseOutcome.okNone
      else
        if (((src.drop 12).drop 64).drop 8).length <
            fromBytesBE (((src.drop 12).drop 64).take 8) then EncParseOutcome.okNone
        else
          if c.mac hmacKey (encData src) = (src.drop 12).take 64 then
            match c.aeadOpen rnkKey (src.take 12) (encData src) with
            | none => EncParseOutcome.err
            | some plain =>
              if 16 ≤ (plain ++ (encData src).drop plain.length).length then
                EncParseOutcome.okSome ((plain ++ (encData src).drop plain.length).take 16)
                  ((plain ++ (encData src).drop plain.length).drop 16)
              else EncParseOutcome.crash
          else EncParseOutcome.err

/-- Outcome of one relay `UdpReader::handle_bytes` call. -/
inductive UdpReadOutcome where
  | ok
  | errTerm
  | crash
deriving DecidableEq

/-- Relay `UdpReader::handle_bytes` (moshpits/src/udp/reader.rs): drop
datagrams shorter than nonce + uuid + length + 1 octets; split off the
nonce and decrypt the rest in place — a decryption failure propagates as
`Err` (`errTerm`), which `handle_read` forwards with `?`; on success split
off the 16 uuid octets and the 8 length octets and drop the message when
it underruns the parsed length.  `crash` marks an out-of-bounds
`split_at`, shown unreachable. -/
def udpHandleBytes (c : Crypto) (rnkKey buf : List Nat) : UdpReadOutcome :=
  if buf.length < 12 + 16 + 8 + 1 then UdpReadOutcome.ok
  else
    match c.aeadOpen rnkKey (buf.take 12) (buf.drop 12) with
    | none => UdpReadOutcome.errTerm
    | some plain =>
      if 16 ≤ (plain ++ (buf.drop 12).drop plain.length).length then
        if 8 ≤ ((plain ++ (buf.drop 12).drop plain.length).drop 16).length then
          if (((plain ++ (buf.drop 12).drop plain.length).drop 16).drop 8).length <
              fromBytesBE (((plain ++ (buf.drop 12).drop plain.length).drop 16).take 8)
          then UdpReadOutcome.ok
          else UdpReadOutcome.ok
        else UdpReadOutcome.crash
      else UdpReadOutcome.crash

/-- How the relay's datagram receive loop ends on a finite packet list. -/
inductive LoopEnd where
  | awaitMore
  | terminated
  | crashed
deriving DecidableEq

/-- Relay `UdpReader::handle_read`: handle datagrams in order, stopping
when `handle_bytes` returns `Err`.  Returns how many datagrams were taken
off the socket and how the loop ended (`awaitMore`: still alive, blocked
on the next `recv_buf`). -/
def udpHandleRead (c : Crypto) (rnkKey : List Nat) : List (List Nat) → Nat × LoopEnd
  | [] => (0, LoopEnd.awaitMore)
  | p :: ps =>
    match udpHandleBytes c rnkKey p with
    | UdpReadOutcome.ok =>
      ((udpHandleRead c rnkKey ps).1 + 1, (udpHandleRead c rnkKey ps).2)
    | UdpReadOutcome.errTerm => (1, LoopEnd.terminated)
    | UdpReadOutcome.crash => (1, LoopEnd.crashed)

/-- Toy sealing: constant nonce, tag of 16 copies of the key sum. -/
def toySeal (k p : List Nat) : List Nat × List Nat :=
  (List.replicate 12 0, p ++ List.replicate 16 k.sum)

/-- Toy opening: accept exactly the tag `toySeal` appends for this key. -/
def toyOpen (k _x ct : List Nat) : Option (List Nat) :=
  if 16 ≤ ct.length ∧ ct.drop (ct.length - 16) = List.replicate 16 k.sum then
    some (ct.take (ct.length - 16))
  else none

/-- Toy MAC: 64 copies of a sum of key and data. -/
def toyMac (k d : List Nat) : List Nat :=
  List.replicate 64 ((k.sum + d.sum) % 256)

/-- A concrete `Crypto` instance used to evaluate the theorems. -/
def toyCrypto : Crypto where
  computePublic := fun x => x
  agree := fun x y => [x.sum + y.sum]
  extract := fun salt ikm => salt ++ ikm
  expand := fun prk info n => n :: (prk ++ info)
  sealTag := toySeal
  aeadOpen := toyOpen
  mac := toyMac
  seal_nonce_len := by intro k p; simp [toySeal]
  seal_ct_len := by intro k p; simp [toySeal]
  mac_len := by intro k d; simp [toyMac]
  open_len := by
    intro k n ct p hp
    unfold toyOpen at hp
    by_cases h : 16 ≤ ct.length ∧ ct.drop (ct.length - 16) = List.replicate 16 k.sum
    · rw [if_pos h] at hp
      obtain ⟨h1, _⟩ := h
      cases hp
      simp only [List.length_take]
      omega
    · rw [if_neg h] at hp
      cases hp
  open_seal := by
    intro k p
    unfold toySeal toyOpen
    dsimp only
    have hlen : (p ++ List.replicate 16 k.sum).length = p.length + 16 := by simp
    have hsub : (p ++ List.replicate 16 k.sum).length - 16 = p.length := by omega
    rw [hsub, List.drop_left, List.take_left, if_pos ⟨by rw [hlen]; omega, rfl⟩]

theorem encFrameParse_shape (c : Crypto) (hk rk nonceB tagB ct : List Nat)
    (hn : nonceB.length = 12) (ht : tagB.length = 64) (hct : ct.length < 2 ^ 64) :
    encFrameParse c hk rk (nonceB ++ (tagB ++ (toBytesBE 8 ct.length ++ ct))) =
      (if c.mac hk ct = tagB then
        match c.aeadOpen rk nonceB ct with
        | none => EncParseOutcome.err
        | some plain =>
          if 16 ≤ (plain ++ ct.drop plain.length).length then
            EncParseOutcome.okSome ((plain ++ ct.drop plain.length).take 16)
              ((plain ++ ct.drop plain.length).drop 16)
          else EncParseOutcome.crash
       else EncParseOutcome.err) := by
  have hlenB : (toBytesBE 8 ct.length).length = 8 := toBytesBE_length 8 _
  have hd12 : (nonceB ++ (tagB ++ (toBytesBE 8 ct.length ++ ct))).drop 12 =
      tagB ++ (toBytesBE 8 ct.length ++ ct) := List.drop_left' hn
  have ht12 : (nonceB ++ (tagB ++ (toBytesBE 8 ct.length ++ ct))).take 12 =
      nonceB := List.take_left' hn
  have hd64 : (tagB ++ (toBytesBE 8 ct.length ++ ct)).drop 64 =
      toBytesBE 8 ct.length ++ ct := List.drop_left' ht
  have ht64 : (tagB ++ (toBytesBE 8 ct.length ++ ct)).take 64 = tagB :=
    List.take_left' ht
  have hd8 : (toBytesBE 8 ct.length ++ ct).drop 8 = ct := List.drop_left' hlenB
  have ht8 : (toBytesBE 8 ct.length ++ ct).take 8 = toBytesBE 8 ct.length :=
    List.take_left' hlenB
  have hfrom : fromBytesBE (toBytesBE 8 ct.length) = ct.length :=
    fromBytesBE_toBytesBE 8 _ (by norm_num at hct ⊢; omega)
  have hdata : encData (nonceB ++ (tagB ++ (toBytesBE 8 ct.length ++ ct))) = ct := by
    unfold encData
    rw [hd12, hd64, hd8, ht8, hfrom, List.take_length]
  unfold encFrameParse
  rw [if_neg (by simp [hn]), hd12, if_neg (by simp [ht]), hd64,
    if_neg (by simp [hlenB]), hd8, ht8, hfrom, if_neg (by omega), hdata,
    ht64, ht12]

theorem encFrameParse_no_crash (c : Crypto) (hk rk src : List Nat) :
    encFrameParse c hk rk src ≠ EncParseOutcome.crash := by
  intro hcrash
  unfold encFrameParse at hcrash
  by_cases h1 : src.length < 12
  · rw [if_pos h1] at hcrash; cases hcrash
  rw [if_neg h1] at hcrash
  by_cases h2 : (src.drop 12).length < 64
  · rw [if_pos h2] at hcrash; cases hcrash
  rw [if_neg h2] at hcrash
  by_cases h3 : ((src.drop 12).drop 64).length < 8
  · rw [if_pos h3] at hcrash; cases hcrash
  rw [if_neg h3] at hcrash
  by_cases h4 : (((src.drop 12).drop 64).drop 8).length <
      fromBytesBE (((src.drop 12).drop 64).take 8)
  · rw [if_pos h4] at hcrash; cases hcrash
  rw [if_neg h4] at hcrash
  by_cases h5 : c.mac hk (encData src) = (src.drop 12).take 64
  · rw [if_pos h5] at hcrash
    cases hopen : c.aeadOpen rk (src.take 12) (encData src) with
    | none => rw [hopen] at hcrash; cases hcrash
    | some plain =>
        rw [hopen] at hcrash
        have hl := c.open_len _ _ _ _ hopen
        have h16 : 16 ≤ (plain ++ (encData src).drop plain.length).length := by
          simp only [List.length_append, List.length_drop]
          omega
        simp [h16] at hcrash
        omega
  · rw [if_neg h5] at hcrash; cases hcrash

theorem udpHandleBytes_no_crash (c : Crypto) (rk buf : List Nat) :
    udpHandleBytes c rk buf ≠ UdpReadOutcome.crash := by
  intro hcrash
  unfold udpHandleBytes at hcrash
  by_cases h1 : buf.length < 12 + 16 + 8 + 1
  · rw [if_pos h1] at hcrash; cases hcrash
  rw [if_neg h1] at hcrash
  cases hopen : c.aeadOpen rk (buf.take 12) (buf.drop 12) with
  | none => rw [hopen] at hcrash; cases hcrash
  | some plain =>
      rw [hopen] at hcrash
      have hl := c.open_len _ _ _ _ hopen
      simp only [List.length_drop] at hl
      have h16 : 16 ≤ (plain ++ (buf.drop 12).drop plain.length).length := by
        simp only [List.length_append, List.length_drop]
        omega
      have h8 : 8 ≤ ((plain ++ (buf.drop 12).drop plain.length).drop 16).length := by
        simp only [List.length_drop, List.length_append]
        omega
      simp [h16, h8] at hcrash
      omega

/-- C1: for every valid control frame, encoding it with the writer's wire
encoding (tag byte, 8-byte big-endian length, bincode payload) and parsing
the result with `Frame::parse` yields the same frame, with the parse
consuming exactly the full encoded length. -/
theorem c1_write_parse_roundtrip (f : Frame) (h : f.wf) :
    parseFrame (writeFrameBytes f) =
      Except.ok (some (f, (writeFrameBytes f).length)) := by
  have h1 := parseFrame_complete f [] h
  simpa using h1

theorem c1_write_parse_roundtrip_witness :
    (Frame.keyAgreement (List.range 16)).wf ∧
    parseFrame (writeFrameBytes (Frame.keyAgreement (List.range 16))) =
      Except.ok (some (Frame.keyAgreement (List.range 16),
        (writeFrameBytes (Frame.keyAgreement (List.range 16))).length)) :=
  ⟨by decide, c1_write_parse_roundtrip (Frame.keyAgreement (List.range 16)) (by decide)⟩

/-- C7: the claim that every encoded control frame begins with a tag byte
equal to its variant identifier fails: `write_frame` computes `frame.id()`
but then writes a literal `0`, so a PeerInitialize frame (id 1) and a
Check frame (id 2) are both emitted with leading tag byte 0. -/
theorem c7_tag_byte_always_zero :
    (writeFrameBytes (Frame.peerInit [] [])).head? = some 0 ∧
    (Frame.peerInit [] []).id = 1 ∧
    (writeFrameBytes (Frame.check (List.replicate 12 0) [])).head? = some 0 ∧
    (Frame.check (List.replicate 12 0) []).id = 2 ∧
    (writeFrameBytes (Frame.keyAgreement (List.range 16))).head? = some 0 ∧
    (Frame.keyAgreement (List.range 16)).id = 3 := by
  constructor
  · rfl
  · constructor
    · rfl
    · constructor
      · rfl
      · constructor
        · rfl
        · exact ⟨rfl, rfl⟩

/-- C8: whenever fewer than 9 octets are available, or fewer than the
declared payload length remain past the 9-octet header, `Frame::parse`
returns `Ok(None)` — never an error and never a parsed frame. -/
theorem c8_incomplete_returns_none (l : List Nat)
    (h : l.length < 9 ∨ l.length - 9 < fromBytesBE ((l.drop 1).take 8)) :
    parseFrame l = Except.ok none :=
  parseFrame_incomplete l h

theorem c8_incomplete_returns_none_witness :
    ((0 :: toBytesBE 8 5).length < 9 ∨
      (0 :: toBytesBE 8 5).length - 9 <
        fromBytesBE (((0 :: toBytesBE 8 5).drop 1).take 8)) ∧
    parseFrame (0 :: toBytesBE 8 5) = Except.ok none :=
  ⟨by decide, c8_incomplete_returns_none (0 :: toBytesBE 8 5) (by decide)⟩

/-- C9: for every input byte sequence and every choice of keys and
primitives, the datagram decoders return normally — `EncryptedFrame::parse`
and the relay's `handle_bytes` never reach an out-of-bounds split, in
particular not when the decrypted plaintext is shorter than the session id
and length fields split off afterwards. -/
theorem c9_datagram_decoders_never_panic (c : Crypto) (hk rk src buf : List Nat) :
    encFrameParse c hk rk src ≠ EncParseOutcome.crash ∧
    udpHandleBytes c rk buf ≠ UdpReadOutcome.crash :=
  ⟨encFrameParse_no_crash c hk rk src, udpHandleBytes_no_crash c rk buf⟩

def ReadOutcome.frameOf : ReadOutcome → Option Frame
  | .frame f _ _ => some f
  | _ => none

/-- Bytes still undelivered to the application after a successful read:
what stayed in the receive buffer plus the chunks not yet read. -/
def ReadOutcome.leftover : ReadOutcome → List Nat
  | .frame _ buf chunks => buf ++ chunks.flatten
  | _ => []

/-- C2: delivering a valid frame encoding split into any sequence of
non-empty pieces across separate reads yields the same parsed frame as
delivering it whole, and after the parse exactly the consumed prefix is
gone — everything past the encoding is left for the next call. -/
theorem c2_partial_delivery (f : Frame) (extra : List Nat)
    (chunks : List (List Nat)) (h : f.wf)
    (hne : ∀ c ∈ chunks, c ≠ [])
    (hsplit : chunks.flatten = writeFrameBytes f ++ extra) :
    (readFrame [] chunks).frameOf = some f ∧
    (readFrame [] chunks).leftover = extra ∧
    readFrame [] [writeFrameBytes f ++ extra] =
      ReadOutcome.frame f extra [] := by
  obtain ⟨rest, cs, hr, hrest⟩ :=
    readFrame_delivers f h chunks [] extra hne (by simpa using hsplit)
  refine ⟨by rw [hr]; rfl, by rw [hr]; simpa [ReadOutcome.leftover] using hrest, ?_⟩
  have hne2 : writeFrameBytes f ++ extra ≠ [] := by
    simp [writeFrameBytes]
  rw [readFrame_step [] _ [] rfl hne2, List.nil_append]
  exact readFrame_done f h extra []

theorem c2_partial_delivery_witness :
    (Frame.init [7]).wf ∧
    (∀ c ∈ [(writeFrameBytes (Frame.init [7])).take 5,
      (writeFrameBytes (Frame.init [7])).drop 5 ++ [9]], c ≠ []) ∧
    [(writeFrameBytes (Frame.init [7])).take 5,
      (writeFrameBytes (Frame.init [7])).drop 5 ++ [9]].flatten =
        writeFrameBytes (Frame.init [7]) ++ [9] ∧
    (readFrame [] [(writeFrameBytes (Frame.init [7])).take 5,
      (writeFrameBytes (Frame.init [7])).drop 5 ++ [9]]).frameOf =
        some (Frame.init [7]) ∧
    (readFrame [] [(writeFrameBytes (Frame.init [7])).take 5,
      (writeFrameBytes (Frame.init [7])).drop 5 ++ [9]]).leftover = [9] ∧
    readFrame [] [writeFrameBytes (Frame.init [7]) ++ [9]] =
      ReadOutcome.frame (Frame.init [7]) [9] [] := by
  refine ⟨by decide, by decide, by decide, ?_⟩
  have h := c2_partial_delivery (Frame.init [7]) [9]
    [(writeFrameBytes (Frame.init [7])).take 5,
      (writeFrameBytes (Frame.init [7])).drop 5 ++ [9]]
    (by decide) (by decide) (by decide)
  exact ⟨h.1, h.2.1, h.2.2⟩

/-- C3: a malformed datagram that passes the length guard but fails
decryption is not discarded: `handle_bytes` returns `Err`, which
`handle_read` propagates with `?`, terminating the relay's datagram
receive loop with a second datagram still pending.  (Short datagrams and
inner-length overruns are dropped non-fatally, as the other outcomes of
`udpHandleBytes` show; decryption failure is the exception.) -/
theorem c3_decryption_failure_terminates_loop :
    udpHandleBytes toyCrypto [1] (List.replicate 37 0) = UdpReadOutcome.errTerm ∧
    udpHandleRead toyCrypto [1]
      [List.replicate 37 0, List.replicate 37 0] = (1, LoopEnd.terminated) ∧
    udpHandleBytes toyCrypto [1] (List.replicate 36 0) = UdpReadOutcome.ok := by
  refine ⟨by decide, by decide, by decide⟩

/-- C4 counterexample: the plaintext `UdpSender::encrypt` actually seals is
the 16 session-id octets followed directly by the payload; it does not
contain the 8-byte length field the claim describes. -/
theorem c4_counterexample_no_inner_length :
    senderPlaintext (List.replicate 16 7) [1, 2, 3] ≠
      specAuthPlaintext (List.replicate 16 7) [1, 2, 3] := by
  decide

theorem encParseTail_some (ct plain : List Nat) :
    (match some plain with
      | none => EncParseOutcome.err
      | some plain =>
        if 16 ≤ (plain ++ ct.drop plain.length).length then
          EncParseOutcome.okSome ((plain ++ ct.drop plain.length).take 16)
            ((plain ++ ct.drop plain.length).drop 16)
        else EncParseOutcome.crash) =
      (if 16 ≤ (plain ++ ct.drop plain.length).length then
        EncParseOutcome.okSome ((plain ++ ct.drop plain.length).take 16)
          ((plain ++ ct.drop plain.length).drop 16)
      else EncParseOutcome.crash) := rfl

/-- C4 (amended): the authenticated datagram form is
`[12-byte nonce][64-byte MAC tag][8-byte big-endian ciphertext length]
[ciphertext]` with the tag computed over the ciphertext under the MAC key;
on receive the MAC is verified first and decryption happens only on MAC
success; on decryption success the recovered plaintext is parsed as
`[16-byte session id][remainder]` with no inner length field — parsing a
sent packet returns the session id and the payload followed by the 16
residual octets of the in-place buffer. -/
theorem c4_auth_datagram_form (c : Crypto) (hk rk id payload nonceB tagB ct : List Nat)
    (hid : id.length = 16) (hpl : payload.length + 32 < 2 ^ 64)
    (hn : nonceB.length = 12) (ht : tagB.length = 64) (hct : ct.length < 2 ^ 64) :
    (udpSenderEncrypt c hk rk id payload =
      (c.sealTag rk (senderPlaintext id payload)).1 ++
        (c.mac hk (c.sealTag rk (senderPlaintext id payload)).2 ++
          (toBytesBE 8 (c.sealTag rk (senderPlaintext id payload)).2.length ++
            (c.sealTag rk (senderPlaintext id payload)).2))) ∧
    (encFrameParse c hk rk (udpSenderEncrypt c hk rk id payload) =
      EncParseOutcome.okSome id (payload ++
        (c.sealTag rk (senderPlaintext id payload)).2.drop (16 + payload.length))) ∧
    (c.mac hk ct ≠ tagB →
      encFrameParse c hk rk (nonceB ++ (tagB ++ (toBytesBE 8 ct.length ++ ct))) =
        EncParseOutcome.err) ∧
    (c.mac hk ct = tagB → c.aeadOpen rk nonceB ct = none →
      encFrameParse c hk rk (nonceB ++ (tagB ++ (toBytesBE 8 ct.length ++ ct))) =
        EncParseOutcome.err) := by
  have hctlen : (c.sealTag rk (senderPlaintext id payload)).2.length =
      payload.length + 32 := by
    rw [c.seal_ct_len]
    simp only [senderPlaintext, List.length_append, hid]
    omega
  refine ⟨rfl, ?_, ?_, ?_⟩
  · rw [show udpSenderEncrypt c hk rk id payload =
      (c.sealTag rk (senderPlaintext id payload)).1 ++
        (c.mac hk (c.sealTag rk (senderPlaintext id payload)).2 ++
          (toBytesBE 8 (c.sealTag rk (senderPlaintext id payload)).2.length ++
            (c.sealTag rk (senderPlaintext id payload)).2)) from rfl]
    rw [encFrameParse_shape c hk rk _ _ _ (c.seal_nonce_len rk _)
      (c.mac_len hk _) (by omega)]
    rw [if_pos rfl, c.open_seal rk (senderPlaintext id payload),
      encParseTail_some]
    have hplain : (senderPlaintext id payload).length = 16 + payload.length := by
      simp only [senderPlaintext, List.length_append, hid]
    have h16 : 16 ≤ ((senderPlaintext id payload) ++
        (c.sealTag rk (senderPlaintext id payload)).2.drop
          (senderPlaintext id payload).length).length := by
      simp only [List.length_append, List.length_drop]
      omega
    rw [if_pos h16]
    have hassoc : (senderPlaintext id payload) ++
        (c.sealTag rk (senderPlaintext id payload)).2.drop
          (senderPlaintext id payload).length =
        id ++ (payload ++ (c.sealTag rk (senderPlaintext id payload)).2.drop
          (16 + payload.length)) := by
      rw [hplain, senderPlaintext, List.append_assoc]
    rw [hassoc, List.take_left' hid, List.drop_left' hid]
  · intro hmac
    rw [encFrameParse_shape c hk rk nonceB tagB ct hn ht hct, if_neg hmac]
  · intro hmac hopen
    rw [encFrameParse_shape c hk rk nonceB tagB ct hn ht hct, if_pos hmac, hopen]

theorem c4_auth_datagram_form_witness :
    (encFrameParse toyCrypto [2] [3]
      (udpSenderEncrypt toyCrypto [2] [3] (List.replicate 16 7) [1, 2]) =
      EncParseOutcome.okSome (List.replicate 16 7) ([1, 2] ++
        (toyCrypto.sealTag [3] (senderPlaintext (List.replicate 16 7) [1, 2])).2.drop
          (16 + 2))) ∧
    (encFrameParse toyCrypto [2] [3]
      ((List.replicate 12 0) ++ ((List.replicate 64 5) ++
        (toBytesBE 8 (List.replicate 20 0).length ++ List.replicate 20 0))) =
      EncParseOutcome.err) := by
  have h1 := c4_auth_datagram_form toyCrypto [2] [3] (List.replicate 16 7) [1, 2]
    (List.replicate 12 0) (List.replicate 64 5) (List.replicate 20 0)
    (by decide) (by decide) (by decide) (by decide) (by decide)
  exact ⟨by simpa using h1.2.1, h1.2.2.1 (by decide)⟩

/-- C5 counterexample: running both handshake halves over the same
primitives, the client sends a derived HMAC key on its state channel but
the relay's Initialize handler derives none — its state messages contain
no HMAC key at all, so the two roles cannot both hold the MAC key. -/
theorem c5_counterexample_relay_derives_no_mac_key :
    (relayHandleInit toyCrypto [4] [5] (List.replicate 32 6)).sentStates.filter
      UdpStateM.isHmac = [] ∧
    (clientHandlePeerInit toyCrypto [5] [4] (List.replicate 32 6)).sentStates.filter
      UdpStateM.isHmac ≠ [] := by
  refine ⟨by decide, by decide⟩

/-- C5 (amended): given key agreement that is symmetric on the exchanged
ephemeral key pairs and the same salt, the client and the relay derive
bit-identical AEAD keys via the same extract/expand calls with the same
`aead key` label; only the client additionally derives a MAC key — the
relay's handshake derives none. -/
theorem c5_aead_key_symmetry (c : Crypto) (cPriv rPriv salt : List Nat)
    (hsym : c.agree cPriv (c.computePublic rPriv) =
      c.agree rPriv (c.computePublic cPriv)) :
    (clientHandlePeerInit c cPriv (c.computePublic rPriv) salt).aeadKey =
      (relayHandleInit c (c.computePublic cPriv) rPriv salt).rnkKey ∧
    (clientHandlePeerInit c cPriv (c.computePublic rPriv) salt).macKey =
      c.expand (c.extract salt (c.agree rPriv (c.computePublic cPriv))) hmacInfo 64 ∧
    (relayHandleInit c (c.computePublic cPriv) rPriv salt).sentStates.filter
      UdpStateM.isHmac = [] := by
  unfold clientHandlePeerInit relayHandleInit
  refine ⟨by rw [hsym], by rw [hsym], by simp [UdpStateM.isHmac]⟩

theorem c5_aead_key_symmetry_witness :
    (toyCrypto.agree [1] (toyCrypto.computePublic [2]) =
      toyCrypto.agree [2] (toyCrypto.computePublic [1])) ∧
    (clientHandlePeerInit toyCrypto [1] (toyCrypto.computePublic [2])
        (List.replicate 32 6)).aeadKey =
      (relayHandleInit toyCrypto (toyCrypto.computePublic [1]) [2]
        (List.replicate 32 6)).rnkKey := by
  refine ⟨by decide, ?_⟩
  exact (c5_aead_key_symmetry toyCrypto [1] [2] (List.replicate 32 6) (by decide)).1

/-- C6: the relay's handshake handler fails with `InvalidFrame` when the
first frame is not Initialize or the second is not Check, with
`KeyNotEstablished` when a Check frame arrives before key material exists,
and with `DecryptionFailed` when the Check ciphertext does not decrypt or
the recovered plaintext is not the known marker. -/
theorem c6_handshake_failure_semantics (c : Crypto)
    (priv salt freshUuid pk nB ct key plain : List Nat)
    (f g : Frame) (r2 : Option Frame) :
    (f.id ≠ 0 →
      relayHandleConnection c priv salt freshUuid (some f) r2 =
        ConnOutcome.failed MoshpitErr.invalidFrame []) ∧
    (g.id ≠ 2 →
      relayHandleConnection c priv salt freshUuid (some (Frame.init pk)) (some g) =
        ConnOutcome.failed MoshpitErr.invalidFrame
          [(relayHandleInit c pk priv salt).sentFrame]) ∧
    (relayHandleConnection c priv salt freshUuid none (some (Frame.check nB ct)) =
      ConnOutcome.failed MoshpitErr.keyNotEstablished []) ∧
    (handleCheck c none nB ct freshUuid =
      Except.error MoshpitErr.keyNotEstablished) ∧
    (c.aeadOpen key nB ct = none →
      handleCheck c (some key) nB ct freshUuid =
        Except.error MoshpitErr.decryptionFailed) ∧
    (c.aeadOpen key nB ct = some plain → plain ≠ yodaBytes →
      handleCheck c (some key) nB ct freshUuid =
        Except.error MoshpitErr.decryptionFailed) := by
  refine ⟨?_, ?_, ?_, rfl, ?_, ?_⟩
  · intro hf
    cases f with
    | init d => exact absurd rfl hf
    | peerInit a b => rfl
    | check a b => rfl
    | keyAgreement u => rfl
  · intro hg
    cases g with
    | init d => rfl
    | peerInit a b => rfl
    | check a b => exact absurd rfl hg
    | keyAgreement u => rfl
  · rfl
  · intro hopen
    show (match c.aeadOpen key nB ct with
      | none => Except.error MoshpitErr.decryptionFailed
      | some plain =>
        if plain = yodaBytes then
          Except.ok (⟨[Frame.keyAgreement freshUuid],
            [UdpStateM.uuid freshUuid]⟩ : CheckResult)
        else Except.error MoshpitErr.decryptionFailed) =
      Except.error MoshpitErr.decryptionFailed
    rw [hopen]
  · intro hopen hplain
    show (match c.aeadOpen key nB ct with
      | none => Except.error MoshpitErr.decryptionFailed
      | some plain =>
        if plain = yodaBytes then
          Except.ok (⟨[Frame.keyAgreement freshUuid],
            [UdpStateM.uuid freshUuid]⟩ : CheckResult)
        else Except.error MoshpitErr.decryptionFailed) =
      Except.error MoshpitErr.decryptionFailed
    rw [hopen]
    show (if plain = yodaBytes then
        Except.ok (⟨[Frame.keyAgreement freshUuid],
          [UdpStateM.uuid freshUuid]⟩ : CheckResult)
      else Except.error MoshpitErr.decryptionFailed) =
      Except.error MoshpitErr.decryptionFailed
    rw [if_neg hplain]

theorem c6_handshake_failure_semantics_witness :
    ((Frame.check (List.replicate 12 0) []).id ≠ 0 ∧
      relayHandleConnection toyCrypto [5] (List.replicate 32 6) (List.range 16)
        (some (Frame.check (List.replicate 12 0) [])) none =
        ConnOutcome.failed MoshpitErr.invalidFrame []) ∧
    ((Frame.init [4]).id ≠ 2 ∧
      relayHandleConnection toyCrypto [5] (List.replicate 32 6) (List.range 16)
        (some (Frame.init [4])) (some (Frame.init [4])) =
        ConnOutcome.failed MoshpitErr.invalidFrame
          [(relayHandleInit toyCrypto [4] [5] (List.replicate 32 6)).sentFrame]) ∧
    (relayHandleConnection toyCrypto [5] (List.replicate 32 6) (List.range 16)
      none (some (Frame.check (List.replicate 12 0) [])) =
      ConnOutcome.failed MoshpitErr.keyNotEstablished []) ∧
    (toyCrypto.aeadOpen [1] (List.replicate 12 0) (List.replicate 20 0) = none ∧
      handleCheck toyCrypto (some [1]) (List.replicate 12 0) (List.replicate 20 0)
        (List.range 16) = Except.error MoshpitErr.decryptionFailed) ∧
    (toyCrypto.aeadOpen [1] (List.replicate 12 0) (9 :: List.replicate 16 1) =
        some [9] ∧ [9] ≠ yodaBytes ∧
      handleCheck toyCrypto (some [1]) (List.replicate 12 0) (9 :: List.replicate 16 1)
        (List.range 16) = Except.error MoshpitErr.decryptionFailed) := by
  have h := c6_handshake_failure_semantics toyCrypto [5] (List.replicate 32 6)
    (List.range 16) [4] (List.replicate 12 0) (List.replicate 20 0) [1] [9]
    (Frame.check (List.replicate 12 0) []) (Frame.init [4]) none
  have h2 := c6_handshake_failure_semantics toyCrypto [5] (List.replicate 32 6)
    (List.range 16) [4] (List.replicate 12 0) (9 :: List.replicate 16 1) [1] [9]
    (Frame.check (List.replicate 12 0) []) (Frame.init [4]) none
  refine ⟨⟨by decide, h.1 (by decide)⟩,
    ⟨by decide, ?_⟩,
    ?_,
    ⟨by decide, h.2.2.2.2.1 (by decide)⟩,
    ⟨by decide, by decide, h2.2.2.2.2.2 (by decide) (by decide)⟩⟩
  · have h3 := c6_handshake_failure_semantics toyCrypto [5] (List.replicate 32 6)
      (List.range 16) [4] (List.replicate 12 0) (List.replicate 20 0) [1] [9]
      (Frame.check (List.replicate 12 0) []) (Frame.init [4]) (some (Frame.init [4]))
    exact h3.2.1 (by decide)
  · exact h.2.2.1

theorem handleCheck_ok (c : Crypto) (rnk : Option (List Nat))
    (nB ct u : List Nat) (res : CheckResult)
    (h : handleCheck c rnk nB ct u = .ok res) :
    res = ⟨[Frame.keyAgreement u], [UdpStateM.uuid u]⟩ := by
  cases rnk with
  | none => simp [handleCheck] at h
  | some key =>
      simp only [handleCheck] at h
      split at h
      · simp at h
      · split at h
        · cases h
          rfl
        · simp at h

/-- C10: whenever the relay's handshake handler completes successfully and
hands back a key/uuid pair for binding the UDP reader and sender, the uuid
is exactly the one generated in the Check-handling step — the same uuid
sent to the client inside the KeyAgreement frame. -/
theorem c10_session_id_consistency (c : Crypto) (priv salt freshUuid kb uu : List Nat)
    (r1 r2 : Option Frame) (w : List Frame)
    (h : relayHandleConnection c priv salt freshUuid r1 r2 =
      ConnOutcome.promoted kb uu w) :
    uu = freshUuid ∧ Frame.keyAgreement freshUuid ∈ w := by
  cases r1 with
  | none =>
      cases r2 with
      | none => simp [relayHandleConnection, relayStep2, drainUdpState] at h
      | some g =>
          cases g <;>
            simp [relayHandleConnection, relayStep2, handleCheck] at h
  | some f =>
      cases f with
      | peerInit a b => simp [relayHandleConnection] at h
      | check a b => simp [relayHandleConnection] at h
      | keyAgreement u => simp [relayHandleConnection] at h
      | init pk =>
          cases r2 with
          | none =>
              simp [relayHandleConnection, relayStep2, relayHandleInit,
                drainUdpState] at h
          | some g =>
              cases g with
              | init d => simp [relayHandleConnection, relayStep2] at h
              | peerInit a b => simp [relayHandleConnection, relayStep2] at h
              | keyAgreement u => simp [relayHandleConnection, relayStep2] at h
              | check nB ct =>
                  have hstep : relayHandleConnection c priv salt freshUuid
                      (some (Frame.init pk)) (some (Frame.check nB ct)) =
                    match handleCheck c (some (relayHandleInit c pk priv salt).rnkKey)
                        nB ct freshUuid with
                    | .error e => ConnOutcome.failed e
                        [(relayHandleInit c pk priv salt).sentFrame]
                    | .ok res =>
                      match drainUdpState (List.replicate 32 0)
                          ((relayHandleInit c pk priv salt).sentStates ++
                            res.sentStates) with
                      | some (kb, uu) => ConnOutcome.promoted kb uu
                          ([(relayHandleInit c pk priv salt).sentFrame] ++
                            res.sentFrames)
                      | none => ConnOutcome.blocked
                          ([(relayHandleInit c pk priv salt).sentFrame] ++
                            res.sentFrames) := rfl
                  rw [hstep] at h
                  cases hchk : handleCheck c
                      (some (relayHandleInit c pk priv salt).rnkKey)
                      nB ct freshUuid with
                  | error e => rw [hchk] at h; simp at h
                  | ok res =>
                      rw [hchk] at h
                      have hres := handleCheck_ok c _ nB ct freshUuid res hchk
                      subst hres
                      simp [relayHandleInit, drainUdpState] at h
                      obtain ⟨hkb, huu, hw⟩ := h
                      refine ⟨huu.symm, ?_⟩
                      rw [← hw]
                      simp

theorem c10_session_id_consistency_witness :
    relayHandleConnection toyCrypto [2] (List.replicate 32 6) (List.range 16)
      (some (Frame.init [4]))
      (some (Frame.check (List.replicate 12 0) (yodaBytes ++ List.replicate 16
        ((relayHandleInit toyCrypto [4] [2] (List.replicate 32 6)).rnkKey.sum)))) =
      ConnOutcome.promoted
        (relayHandleInit toyCrypto [4] [2] (List.replicate 32 6)).rnkKey
        (List.range 16)
        [(relayHandleInit toyCrypto [4] [2] (List.replicate 32 6)).sentFrame,
          Frame.keyAgreement (List.range 16)] ∧
    List.range 16 = List.range 16 ∧
    Frame.keyAgreement (List.range 16) ∈
      [(relayHandleInit toyCrypto [4] [2] (List.replicate 32 6)).sentFrame,
        Frame.keyAgreement (List.range 16)] := by
  have hc : relayHandleConnection toyCrypto [2] (List.replicate 32 6) (List.range 16)
      (some (Frame.init [4]))
      (some (Frame.check (List.replicate 12 0) (yodaBytes ++ List.replicate 16
        ((relayHandleInit toyCrypto [4] [2] (List.replicate 32 6)).rnkKey.sum)))) =
      ConnOutcome.promoted
        (relayHandleInit toyCrypto [4] [2] (List.replicate 32 6)).rnkKey
        (List.range 16)
        [(relayHandleInit toyCrypto [4] [2] (List.replicate 32 6)).sentFrame,
          Frame.keyAgreement (List.range 16)] := by decide
  refine ⟨hc, c10_session_id_consistency toyCrypto [2] (List.replicate 32 6)
    (List.range 16) _ _ _ _ _ hc⟩

end Moshpit
